import Mathlib

/-!
Shallow embedding of the change-detection engine of `github-commit-notifier`
(src/notifier.rs, src/github_client.rs, src/models.rs).

Hash maps are embedded as functions `String → Option _`; hash sets as lists
whose membership is the set membership (insertion keeps them duplicate-free
exactly where the Rust `HashSet` does).  Network calls (`get_commit`,
`get_user`) are oracles `… → Option _` (`none` = the call failed); the
functions additionally log each resolution request they issue, paired with
the branch name or login that triggered it, so that "no resolution call is
made" is a provable statement.
-/

namespace GithubNotifier

/-- models.rs `Branch` (with its nested `Commit { sha }` flattened). -/
structure Branch where
  name : String
  sha : String
deriving DecidableEq

/-- models.rs `FullCommit` (nested `CommitDetails`/`CommitAuthor` flattened). -/
structure FullCommit where
  htmlUrl : String
  message : String
  authorName : String
deriving DecidableEq

/-- models.rs `User`. -/
structure User where
  login : String
  displayName : Option String
deriving DecidableEq

/-- models.rs `PullRequest`. -/
structure PullRequest where
  id : Nat
  htmlUrl : String
  title : String
  user : User
deriving DecidableEq

/-- A notification event emitted by the engine (notify_commit / notify_branch /
notify_pr in notifier.rs).  `NewCommit` carries the sha the detail was
resolved for. -/
inductive Event where
  | NewCommit (repo branch sha : String) (detail : FullCommit)
  | NewBranch (repo branch : String) (detail : FullCommit)
  | NewPullRequest (repo : String) (pr : PullRequest)
deriving DecidableEq

/-- `HashMap<String, String>` (seen_commits, etags). -/
abbrev SMap := String → Option String

/-- `HashMap<String, HashSet<String>>` (seen_branches). -/
abbrev BMap := String → Option (List String)

/-- `HashMap<String, HashSet<u64>>` (seen_prs). -/
abbrev PMap := String → Option (List Nat)

/-- `map.insert(k, v)` on a string-valued map. -/
def updS (m : SMap) (k v : String) : SMap :=
  fun k2 => if k2 = k then some v else m k2

/-- `map.insert(k, v)` on a branch-set map. -/
def updB (m : BMap) (k : String) (v : List String) : BMap :=
  fun k2 => if k2 = k then some v else m k2

/-- `map.insert(k, v)` on a PR-set map. -/
def updP (m : PMap) (k : String) (v : List Nat) : PMap :=
  fun k2 => if k2 = k then some v else m k2

/-- notifier.rs line 86: `format!("{}/{}", repo.full_name, branch.name)`. -/
def commitKey (repo branch : String) : String :=
  repo ++ "/" ++ branch

/-- Result of the first loop of `check_branches_and_commits` (lines 83-111):
the updated seen-commit map, the commit events that will be notified, and
the `get_commit` calls issued (branch name, sha). -/
structure CommitScan where
  seen : SMap
  events : List Event
  calls : List (String × String)

/-- notifier.rs lines 83-111: walk the fetched branches; for each branch,
compare its head sha with the seen-commit map entry for
`{repo}/{branch}`.  Absent: record, no event.  Present and equal: nothing.
Present and different: resolve the commit detail (event on success, none on
failure) and record the new sha either way. -/
def processCommits (resolve : String → String → Option FullCommit) (repo : String)
    (seen : SMap) : List Branch → CommitScan
  | [] => ⟨seen, [], []⟩
  | b :: bs =>
    match seen (commitKey repo b.name) with
    | some seenSha =>
      if seenSha = b.sha then
        processCommits resolve repo seen bs
      else
        let rest := processCommits resolve repo (updS seen (commitKey repo b.name) b.sha) bs
        match resolve repo b.sha with
        | some d =>
          ⟨rest.seen, Event.NewCommit repo b.name b.sha d :: rest.events,
            (b.name, b.sha) :: rest.calls⟩
        | none => ⟨rest.seen, rest.events, (b.name, b.sha) :: rest.calls⟩
    | none => processCommits resolve repo (updS seen (commitKey repo b.name) b.sha) bs

/-- notifier.rs line 84: the `current_branches` hash set — the branch names
of the fetched collection, without duplicates. -/
def currentBranches : List Branch → List String
  | [] => []
  | b :: bs => b.name :: (currentBranches bs).filter (fun n => n ≠ b.name)

/-- notifier.rs lines 136-158: for each new branch name, look the branch up
in the fetched collection, resolve its head commit, and emit `NewBranch` on
success (skip on failure).  Returns the events and the `get_commit` calls
issued (branch name, sha). -/
def resolveNewBranches (resolve : String → String → Option FullCommit) (repo : String)
    (branches : List Branch) : List String → List Event × List (String × String)
  | [] => ([], [])
  | n :: ns =>
    let rest := resolveNewBranches resolve repo branches ns
    match branches.find? (fun b => decide (b.name = n)) with
    | some b =>
      match resolve repo b.sha with
      | some d => (Event.NewBranch repo n d :: rest.1, (n, b.sha) :: rest.2)
      | none => (rest.1, (n, b.sha) :: rest.2)
    | none => rest

/-- Result of one `check_branches_and_commits` body applied to an already
fetched branch collection (lines 79-158). -/
structure BranchCycleResult where
  seenCommits : SMap
  seenBranches : BMap
  events : List Event
  calls : List (String × String)

/-- notifier.rs lines 79-158: the branch/commit change detection for one
repository applied to a fetched branch collection.  Commit events first,
then new-branch events, as notified by the code. -/
def processBranchCycle (resolve : String → String → Option FullCommit) (repo : String)
    (seenC : SMap) (seenB : BMap) (branches : List Branch) : BranchCycleResult :=
  let scan := processCommits resolve repo seenC branches
  let cur := currentBranches branches
  match seenB repo with
  | some s =>
    let newNames := cur.filter (fun n => !decide (n ∈ s))
    let r := resolveNewBranches resolve repo branches newNames
    ⟨scan.seen, updB seenB repo (s ++ newNames), scan.events ++ r.1, scan.calls ++ r.2⟩
  | none => ⟨scan.seen, updB seenB repo cur, scan.events, scan.calls⟩

/-- notifier.rs line 183-184: on `get_user` success the PR is notified with
the full user profile, otherwise with the original embedded user. -/
def applyUser (pr : PullRequest) : Option User → PullRequest
  | some u => { pr with user := u }
  | none => pr

/-- notifier.rs lines 179-194: walk the fetched pull requests with the
repository's seen-PR set; an unseen id is resolved (`get_user`, non-fatal),
queued for notification, and added to the set.  Returns the final set, the
queued PRs, and the logins looked up. -/
def scanPRs (getUser : String → Option User) (entry : List Nat) :
    List PullRequest → List Nat × List PullRequest × List String
  | [] => (entry, [], [])
  | pr :: rest =>
    if pr.id ∈ entry then scanPRs getUser entry rest
    else
      let r := scanPRs getUser (entry ++ [pr.id]) rest
      (r.1, applyUser pr (getUser pr.user.login) :: r.2.1, pr.user.login :: r.2.2)

/-- Result of one `check_pull_requests` body applied to a fetched PR
collection (lines 175-199). -/
structure PRCycleResult where
  seenPRs : PMap
  events : List Event
  userCalls : List String

/-- notifier.rs lines 175-199: PR change detection for one repository,
applied to a fetched PR collection.  `entry(..).or_default()` means the
repository's seen-PR entry is (re)inserted even when no PR is new. -/
def processPRs (getUser : String → Option User) (repo : String) (seenP : PMap)
    (prs : List PullRequest) : PRCycleResult :=
  let r := scanPRs getUser ((seenP repo).getD []) prs
  ⟨updP seenP repo r.1, r.2.1.map (Event.NewPullRequest repo), r.2.2⟩

/-- The engine's dedup state (notifier.rs fields seen_commits,
seen_branches, seen_prs). -/
structure NState where
  seenCommits : SMap
  seenBranches : BMap
  seenPRs : PMap

/-- One repository's poll cycle over already fetched branch and PR
collections: `check_branches_and_commits` then `check_pull_requests`
(notifier.rs `check_repo`), returning the new state and all events. -/
def runCycle (resolve : String → String → Option FullCommit)
    (getUser : String → Option User) (repo : String) (st : NState)
    (branches : List Branch) (prs : List PullRequest) : NState × List Event :=
  let b := processBranchCycle resolve repo st.seenCommits st.seenBranches branches
  let p := processPRs getUser repo st.seenPRs prs
  (⟨b.seenCommits, b.seenBranches, p.seenPRs⟩, b.events ++ p.events)

/-- An HTTP response as `get_paged` inspects it: status code, optional ETag
header, and the parsed JSON body (`none` = parse failure). -/
structure HttpResponse (T : Type) where
  status : Nat
  etagHeader : Option String
  body : Option (List T)

/-- github_client.rs lines 24-52 `GithubClient::get_paged`: a 304 response
yields the empty collection together with the validator that was sent; a
2xx response yields the parsed items and the response's ETag header; any
other status (or a body that fails to parse) is an error. -/
def get_paged {T : Type} (etag : Option String) (resp : HttpResponse T) :
    Except Nat (List T × Option String) :=
  if resp.status = 304 then Except.ok ([], etag)
  else if 200 ≤ resp.status ∧ resp.status ≤ 299 then
    match resp.body with
    | some items => Except.ok (items, resp.etagHeader)
    | none => Except.error resp.status
  else Except.error resp.status

/-- Full notifier state including the etag table (notifier.rs struct). -/
structure FullState where
  seenCommits : SMap
  seenBranches : BMap
  seenPRs : PMap
  etags : SMap

/-- notifier.rs line 68. -/
def branchesUrl (repo : String) : String :=
  "https://api.github.com/repos/" ++ repo ++ "/branches"

/-- notifier.rs line 164. -/
def pullsUrl (repo : String) : String :=
  "https://api.github.com/repos/" ++ repo ++ "/pulls"

/-- notifier.rs lines 75-77 and 171-173: store the returned validator when
there is one. -/
def updateEtag (etags : SMap) (url : String) : Option String → SMap
  | some t => updS etags url t
  | none => etags

/-- notifier.rs lines 67-161 `check_branches_and_commits`, with the HTTP
response for the branches URL as input.  Returns the new state, the events,
and the `get_commit` calls issued. -/
def checkBranchesAndCommits (resolve : String → String → Option FullCommit)
    (repo : String) (st : FullState) (resp : HttpResponse Branch) :
    Except Nat (FullState × List Event × List (String × String)) :=
  match get_paged (st.etags (branchesUrl repo)) resp with
  | Except.error e => Except.error e
  | Except.ok (branches, newEtag) =>
    let r := processBranchCycle resolve repo st.seenCommits st.seenBranches branches
    Except.ok ({ st with
      seenCommits := r.seenCommits
      seenBranches := r.seenBranches
      etags := updateEtag st.etags (branchesUrl repo) newEtag }, r.events, r.calls)

/-- notifier.rs lines 163-201 `check_pull_requests`, with the HTTP response
for the pulls URL as input.  Returns the new state, the events, and the
`get_user` calls issued. -/
def checkPullRequests (getUser : String → Option User) (repo : String)
    (st : FullState) (resp : HttpResponse PullRequest) :
    Except Nat (FullState × List Event × List String) :=
  match get_paged (st.etags (pullsUrl repo)) resp with
  | Except.error e => Except.error e
  | Except.ok (prs, newEtag) =>
    let r := processPRs getUser repo st.seenPRs prs
    Except.ok ({ st with
      seenPRs := r.seenPRs
      etags := updateEtag st.etags (pullsUrl repo) newEtag }, r.events, r.userCalls)

/-- notifier.rs lines 35-44: collect every organization's repositories; the
`?` on each per-organization fetch makes the first failure abort the whole
collection step. -/
def fetchAllRepos (fetchOrg : String → Except Nat (List String)) :
    List String → Except Nat (List String)
  | [] => Except.ok []
  | o :: os =>
    match fetchOrg o with
    | Except.error e => Except.error e
    | Except.ok repos =>
      match fetchAllRepos fetchOrg os with
      | Except.error e => Except.error e
      | Except.ok rest => Except.ok (repos ++ rest)

/-- Is this event a `NewCommit` for branch `n`? -/
def isNewCommitFor (n : String) : Event → Bool
  | Event.NewCommit _ bn _ _ => decide (bn = n)
  | _ => false

/-- Is this event a `NewBranch` for branch `n`? -/
def isNewBranchFor (n : String) : Event → Bool
  | Event.NewBranch _ bn _ => decide (bn = n)
  | _ => false

/-- Is this event a `NewBranch` at all? -/
def isNewBranchEvent : Event → Bool
  | Event.NewBranch _ _ _ => true
  | _ => false

/-- The PR id an event notifies, if it is a `NewPullRequest`. -/
def prEventId : Event → Option Nat
  | Event.NewPullRequest _ pr => some pr.id
  | _ => none

/-! ## Basic lemmas about the map embedding -/

theorem string_append_left_cancel (s a b : String) (h : s ++ a = s ++ b) : a = b := by
  have hd : (s ++ a).data = (s ++ b).data := congrArg String.data h
  rw [String.data_append, String.data_append] at hd
  have h2 := List.append_cancel_left hd
  cases a; cases b; exact congrArg String.mk (by simpa using h2)

theorem commitKey_inj (repo a b : String) (h : commitKey repo a = commitKey repo b) :
    a = b := by
  unfold commitKey at h
  exact string_append_left_cancel (repo ++ "/") a b h

theorem commitKey_ne (repo : String) {a b : String} (h : a ≠ b) :
    commitKey repo a ≠ commitKey repo b :=
  fun hk => h (commitKey_inj repo a b hk)

theorem updS_self (m : SMap) (k v : String) : updS m k v k = some v := by
  simp [updS]

theorem updS_other (m : SMap) (k v k2 : String) (h : k2 ≠ k) : updS m k v k2 = m k2 := by
  simp [updS, h]

theorem updS_eq_self (m : SMap) (k v : String) (h : m k = some v) : updS m k v = m := by
  funext k2
  by_cases hk : k2 = k
  · subst hk; simp [updS, h]
  · simp [updS, hk]

theorem updB_self (m : BMap) (k : String) (v : List String) : updB m k v k = some v := by
  simp [updB]

theorem updB_eq_self (m : BMap) (k : String) (v : List String) (h : m k = some v) :
    updB m k v = m := by
  funext k2
  by_cases hk : k2 = k
  · subst hk; simp [updB, h]
  · simp [updB, hk]

theorem updP_self (m : PMap) (k : String) (v : List Nat) : updP m k v k = some v := by
  simp [updP]

theorem updP_eq_self (m : PMap) (k : String) (v : List Nat) (h : m k = some v) :
    updP m k v = m := by
  funext k2
  by_cases hk : k2 = k
  · subst hk; simp [updP, h]
  · simp [updP, hk]

theorem updateEtag_same (m : SMap) (url : String) : updateEtag m url (m url) = m := by
  cases h : m url with
  | none => simp [updateEtag]
  | some t => simp [updateEtag, updS_eq_self m url t h]

/-! ## Lemmas about `processCommits` -/

theorem processCommits_seen_untouched (resolve : String → String → Option FullCommit)
    (repo n : String) (seen : SMap) (bs : List Branch)
    (hn : n ∉ bs.map Branch.name) :
    (processCommits resolve repo seen bs).seen (commitKey repo n) =
      seen (commitKey repo n) := by
  induction bs generalizing seen with
  | nil => rfl
  | cons b bs ih =>
    simp only [List.map_cons, List.mem_cons, not_or] at hn
    obtain ⟨hne, hnotin⟩ := hn
    have hkey : commitKey repo n ≠ commitKey repo b.name := commitKey_ne repo hne
    simp only [processCommits]
    cases hk : seen (commitKey repo b.name) with
    | some seenSha =>
      by_cases hsha : seenSha = b.sha
      · simp only [hsha, if_pos rfl]
        exact ih seen hnotin
      · simp only [if_neg hsha]
        cases hres : resolve repo b.sha with
        | some d =>
          simpa using (ih _ hnotin).trans (updS_other seen _ _ _ hkey)
        | none =>
          simpa using (ih _ hnotin).trans (updS_other seen _ _ _ hkey)
    | none =>
      exact (ih _ hnotin).trans (updS_other seen _ _ _ hkey)

theorem processCommits_events_shape (resolve : String → String → Option FullCommit)
    (repo : String) (seen : SMap) (bs : List Branch) :
    ∀ e ∈ (processCommits resolve repo seen bs).events,
      ∃ bn sha d, e = Event.NewCommit repo bn sha d ∧ bn ∈ bs.map Branch.name := by
  induction bs generalizing seen with
  | nil => intro e he; simp [processCommits] at he
  | cons b bs ih =>
    intro e he
    cases hk : seen (commitKey repo b.name) with
    | some seenSha =>
      simp only [processCommits, hk] at he
      by_cases hsha : seenSha = b.sha
      · rw [if_pos hsha] at he
        obtain ⟨bn, sha, d, hd, hmem⟩ := ih seen e he
        exact ⟨bn, sha, d, hd, by simp [hmem]⟩
      · rw [if_neg hsha] at he
        cases hres : resolve repo b.sha with
        | some d =>
          simp only [hres, List.mem_cons] at he
          rcases he with he | he
          · exact ⟨b.name, b.sha, d, he, by simp⟩
          · obtain ⟨bn, sha, d2, hd, hmem⟩ := ih _ e he
            exact ⟨bn, sha, d2, hd, by simp [hmem]⟩
        | none =>
          simp only [hres] at he
          obtain ⟨bn, sha, d2, hd, hmem⟩ := ih _ e he
          exact ⟨bn, sha, d2, hd, by simp [hmem]⟩
    | none =>
      simp only [processCommits, hk] at he
      obtain ⟨bn, sha, d2, hd, hmem⟩ := ih _ e he
      exact ⟨bn, sha, d2, hd, by simp [hmem]⟩

theorem processCommits_calls_shape (resolve : String → String → Option FullCommit)
    (repo : String) (seen : SMap) (bs : List Branch) :
    ∀ c ∈ (processCommits resolve repo seen bs).calls, c.1 ∈ bs.map Branch.name := by
  induction bs generalizing seen with
  | nil => intro c hc; simp [processCommits] at hc
  | cons b bs ih =>
    intro c hc
    cases hk : seen (commitKey repo b.name) with
    | some seenSha =>
      simp only [processCommits, hk] at hc
      by_cases hsha : seenSha = b.sha
      · rw [if_pos hsha] at hc
        simp [ih seen c hc]
      · rw [if_neg hsha] at hc
        cases hres : resolve repo b.sha with
        | some d =>
          simp only [hres, List.mem_cons] at hc
          rcases hc with hc | hc
          · simp [hc]
          · simp [ih _ c hc]
        | none =>
          simp only [hres, List.mem_cons] at hc
          rcases hc with hc | hc
          · simp [hc]
          · simp [ih _ c hc]
    | none =>
      simp only [processCommits, hk] at hc
      simp [ih _ c hc]

theorem processCommits_filter_commit_not_mem (resolve : String → String → Option FullCommit)
    (repo n : String) (seen : SMap) (bs : List Branch)
    (hn : n ∉ bs.map Branch.name) :
    (processCommits resolve repo seen bs).events.filter (isNewCommitFor n) = [] := by
  rw [List.filter_eq_nil_iff]
  intro e he
  obtain ⟨bn, sha, d, hd, hmem⟩ := processCommits_events_shape resolve repo seen bs e he
  subst hd
  simp only [isNewCommitFor, decide_eq_true_eq]
  intro h
  exact hn (h ▸ hmem)

theorem processCommits_calls_filter_not_mem (resolve : String → String → Option FullCommit)
    (repo n : String) (seen : SMap) (bs : List Branch)
    (hn : n ∉ bs.map Branch.name) :
    (processCommits resolve repo seen bs).calls.filter (fun c => decide (c.1 = n)) = [] := by
  rw [List.filter_eq_nil_iff]
  intro c hc
  have hmem := processCommits_calls_shape resolve repo seen bs c hc
  simp only [decide_eq_true_eq]
  intro h
  exact hn (h ▸ hmem)

theorem processCommits_no_branch_events (resolve : String → String → Option FullCommit)
    (repo n : String) (seen : SMap) (bs : List Branch) :
    (processCommits resolve repo seen bs).events.filter (isNewBranchFor n) = [] := by
  rw [List.filter_eq_nil_iff]
  intro e he
  obtain ⟨bn, sha, d, hd, _⟩ := processCommits_events_shape resolve repo seen bs e he
  subst hd
  simp [isNewBranchFor]

theorem processCommits_no_branch_events_any (resolve : String → String → Option FullCommit)
    (repo : String) (seen : SMap) (bs : List Branch) :
    (processCommits resolve repo seen bs).events.filter isNewBranchEvent = [] := by
  rw [List.filter_eq_nil_iff]
  intro e he
  obtain ⟨bn, sha, d, hd, _⟩ := processCommits_events_shape resolve repo seen bs e he
  subst hd
  simp [isNewBranchEvent]

/-- After the commit scan the seen-commit entry of every fetched branch is its
fetched head sha (the last write wins; with duplicate-free names, each branch
writes or keeps exactly its own sha). -/
theorem processCommits_seen_final (resolve : String → String → Option FullCommit)
    (repo : String) (seen : SMap) (b : Branch) (bs : List Branch)
    (hnd : (bs.map Branch.name).Nodup) (hb : b ∈ bs) :
    (processCommits resolve repo seen bs).seen (commitKey repo b.name) = some b.sha := by
  induction bs generalizing seen with
  | nil => cases hb
  | cons h t ih =>
    simp only [List.map_cons, List.nodup_cons] at hnd
    obtain ⟨hh, hndt⟩ := hnd
    rcases List.mem_cons.mp hb with rfl | hbt
    · cases hk : seen (commitKey repo b.name) with
      | some seenSha =>
        by_cases hsha : seenSha = b.sha
        · simp only [processCommits, hk, if_pos hsha]
          rw [processCommits_seen_untouched resolve repo b.name seen t hh, hk, hsha]
        · simp only [processCommits, hk, if_neg hsha]
          cases hres : resolve repo b.sha with
          | some d =>
            simp only [hres]
            rw [processCommits_seen_untouched resolve repo b.name _ t hh, updS_self]
          | none =>
            simp only [hres]
            rw [processCommits_seen_untouched resolve repo b.name _ t hh, updS_self]
      | none =>
        simp only [processCommits, hk]
        rw [processCommits_seen_untouched resolve repo b.name _ t hh, updS_self]
    · cases hk : seen (commitKey repo h.name) with
      | some seenSha =>
        by_cases hsha : seenSha = h.sha
        · simp only [processCommits, hk, if_pos hsha]
          exact ih seen hndt hbt
        · simp only [processCommits, hk, if_neg hsha]
          cases hres : resolve repo h.sha with
          | some d => simp only [hres]; exact ih _ hndt hbt
          | none => simp only [hres]; exact ih _ hndt hbt
      | none =>
        simp only [processCommits, hk]
        exact ih _ hndt hbt

/-- Change detection, successful resolution: a seen branch whose fetched sha
differs yields exactly one `NewCommit`, carrying the new sha and its resolved
detail. -/
theorem processCommits_stale_resolved (resolve : String → String → Option FullCommit)
    (repo A : String) (d : FullCommit) (seen : SMap) (b : Branch) (bs : List Branch)
    (hnd : (bs.map Branch.name).Nodup) (hb : b ∈ bs)
    (hA : seen (commitKey repo b.name) = some A) (hne : A ≠ b.sha)
    (hres : resolve repo b.sha = some d) :
    (processCommits resolve repo seen bs).events.filter (isNewCommitFor b.name) =
      [Event.NewCommit repo b.name b.sha d] := by
  induction bs generalizing seen with
  | nil => cases hb
  | cons h t ih =>
    simp only [List.map_cons, List.nodup_cons] at hnd
    obtain ⟨hh, hndt⟩ := hnd
    rcases List.mem_cons.mp hb with rfl | hbt
    · simp only [processCommits, hA, if_neg hne, hres]
      rw [List.filter_cons_of_pos (by simp [isNewCommitFor])]
      rw [processCommits_filter_commit_not_mem resolve repo b.name _ t hh]
    · have hbn : b.name ∈ t.map Branch.name := List.mem_map_of_mem Branch.name hbt
      have hneq : h.name ≠ b.name := fun he => hh (he ▸ hbn)
      have hkeys : commitKey repo b.name ≠ commitKey repo h.name :=
        commitKey_ne repo (fun he => hneq he.symm)
      cases hk : seen (commitKey repo h.name) with
      | some seenSha =>
        by_cases hsha : seenSha = h.sha
        · simp only [processCommits, hk, if_pos hsha]
          exact ih seen hndt hbt hA
        · have hA2 : updS seen (commitKey repo h.name) h.sha (commitKey repo b.name) =
              some A := by rw [updS_other _ _ _ _ hkeys]; exact hA
          simp only [processCommits, hk, if_neg hsha]
          cases hres2 : resolve repo h.sha with
          | some d2 =>
            simp only [hres2]
            rw [List.filter_cons_of_neg (by simp [isNewCommitFor, hneq])]
            exact ih _ hndt hbt hA2
          | none =>
            simp only [hres2]
            exact ih _ hndt hbt hA2
      | none =>
        have hA2 : updS seen (commitKey repo h.name) h.sha (commitKey repo b.name) =
            some A := by rw [updS_other _ _ _ _ hkeys]; exact hA
        simp only [processCommits, hk]
        exact ih _ hndt hbt hA2

/-- Change detection, failed resolution: a seen branch whose fetched sha
differs but whose detail resolution fails yields no `NewCommit` event. -/
theorem processCommits_stale_failed (resolve : String → String → Option FullCommit)
    (repo A : String) (seen : SMap) (b : Branch) (bs : List Branch)
    (hnd : (bs.map Branch.name).Nodup) (hb : b ∈ bs)
    (hA : seen (commitKey repo b.name) = some A) (hne : A ≠ b.sha)
    (hres : resolve repo b.sha = none) :
    (processCommits resolve repo seen bs).events.filter (isNewCommitFor b.name) = [] := by
  induction bs generalizing seen with
  | nil => cases hb
  | cons h t ih =>
    simp only [List.map_cons, List.nodup_cons] at hnd
    obtain ⟨hh, hndt⟩ := hnd
    rcases List.mem_cons.mp hb with rfl | hbt
    · simp only [processCommits, hA, if_neg hne, hres]
      exact processCommits_filter_commit_not_mem resolve repo b.name _ t hh
    · have hbn : b.name ∈ t.map Branch.name := List.mem_map_of_mem Branch.name hbt
      have hneq : h.name ≠ b.name := fun he => hh (he ▸ hbn)
      have hkeys : commitKey repo b.name ≠ commitKey repo h.name :=
        commitKey_ne repo (fun he => hneq he.symm)
      cases hk : seen (commitKey repo h.name) with
      | some seenSha =>
        by_cases hsha : seenSha = h.sha
        · simp only [processCommits, hk, if_pos hsha]
          exact ih seen hndt hbt hA
        · have hA2 : updS seen (commitKey repo h.name) h.sha (commitKey repo b.name) =
              some A := by rw [updS_other _ _ _ _ hkeys]; exact hA
          simp only [processCommits, hk, if_neg hsha]
          cases hres2 : resolve repo h.sha with
          | some d2 =>
            simp only [hres2]
            rw [List.filter_cons_of_neg (by simp [isNewCommitFor, hneq])]
            exact ih _ hndt hbt hA2
          | none =>
            simp only [hres2]
            exact ih _ hndt hbt hA2
      | none =>
        have hA2 : updS seen (commitKey repo h.name) h.sha (commitKey repo b.name) =
            some A := by rw [updS_other _ _ _ _ hkeys]; exact hA
        simp only [processCommits, hk]
        exact ih _ hndt hbt hA2

/-- Baseline suppression: a branch with no seen-commit entry yields no
`NewCommit` event. -/
theorem processCommits_first_sighting (resolve : String → String → Option FullCommit)
    (repo : String) (seen : SMap) (b : Branch) (bs : List Branch)
    (hnd : (bs.map Branch.name).Nodup) (hb : b ∈ bs)
    (hA : seen (commitKey repo b.name) = none) :
    (processCommits resolve repo seen bs).events.filter (isNewCommitFor b.name) = [] := by
  induction bs generalizing seen with
  | nil => cases hb
  | cons h t ih =>
    simp only [List.map_cons, List.nodup_cons] at hnd
    obtain ⟨hh, hndt⟩ := hnd
    rcases List.mem_cons.mp hb with rfl | hbt
    · simp only [processCommits, hA]
      exact processCommits_filter_commit_not_mem resolve repo b.name _ t hh
    · have hbn : b.name ∈ t.map Branch.name := List.mem_map_of_mem Branch.name hbt
      have hneq : h.name ≠ b.name := fun he => hh (he ▸ hbn)
      have hkeys : commitKey repo b.name ≠ commitKey repo h.name :=
        commitKey_ne repo (fun he => hneq he.symm)
      cases hk : seen (commitKey repo h.name) with
      | some seenSha =>
        by_cases hsha : seenSha = h.sha
        · simp only [processCommits, hk, if_pos hsha]
          exact ih seen hndt hbt hA
        · have hA2 : updS seen (commitKey repo h.name) h.sha (commitKey repo b.name) =
              none := by rw [updS_other _ _ _ _ hkeys]; exact hA
          simp only [processCommits, hk, if_neg hsha]
          cases hres2 : resolve repo h.sha with
          | some d2 =>
            simp only [hres2]
            rw [List.filter_cons_of_neg (by simp [isNewCommitFor, hneq])]
            exact ih _ hndt hbt hA2
          | none =>
            simp only [hres2]
            exact ih _ hndt hbt hA2
      | none =>
        have hA2 : updS seen (commitKey repo h.name) h.sha (commitKey repo b.name) =
            none := by rw [updS_other _ _ _ _ hkeys]; exact hA
        simp only [processCommits, hk]
        exact ih _ hndt hbt hA2

/-- A branch whose seen-commit entry already equals its fetched sha triggers
no event and no resolution call. -/
theorem processCommits_up_to_date (resolve : String → String → Option FullCommit)
    (repo : String) (seen : SMap) (b : Branch) (bs : List Branch)
    (hnd : (bs.map Branch.name).Nodup) (hb : b ∈ bs)
    (hA : seen (commitKey repo b.name) = some b.sha) :
    (processCommits resolve repo seen bs).events.filter (isNewCommitFor b.name) = [] ∧
    (processCommits resolve repo seen bs).calls.filter (fun c => decide (c.1 = b.name)) = [] := by
  induction bs generalizing seen with
  | nil => cases hb
  | cons h t ih =>
    simp only [List.map_cons, List.nodup_cons] at hnd
    obtain ⟨hh, hndt⟩ := hnd
    rcases List.mem_cons.mp hb with rfl | hbt
    · simp only [processCommits, hA, if_pos rfl]
      exact ⟨processCommits_filter_commit_not_mem resolve repo b.name _ t hh,
        processCommits_calls_filter_not_mem resolve repo b.name _ t hh⟩
    · have hbn : b.name ∈ t.map Branch.name := List.mem_map_of_mem Branch.name hbt
      have hneq : h.name ≠ b.name := fun he => hh (he ▸ hbn)
      have hkeys : commitKey repo b.name ≠ commitKey repo h.name :=
        commitKey_ne repo (fun he => hneq he.symm)
      cases hk : seen (commitKey repo h.name) with
      | some seenSha =>
        by_cases hsha : seenSha = h.sha
        · simp only [processCommits, hk, if_pos hsha]
          exact ih seen hndt hbt hA
        · have hA2 : updS seen (commitKey repo h.name) h.sha (commitKey repo b.name) =
              some b.sha := by rw [updS_other _ _ _ _ hkeys]; exact hA
          simp only [processCommits, hk, if_neg hsha]
          cases hres2 : resolve repo h.sha with
          | some d2 =>
            simp only [hres2]
            rw [List.filter_cons_of_neg (by simp [isNewCommitFor, hneq]),
              List.filter_cons_of_neg (by simp [hneq])]
            exact ih _ hndt hbt hA2
          | none =>
            simp only [hres2]
            rw [List.filter_cons_of_neg (by simp [hneq])]
            exact ih _ hndt hbt hA2
      | none =>
        have hA2 : updS seen (commitKey repo h.name) h.sha (commitKey repo b.name) =
            some b.sha := by rw [updS_other _ _ _ _ hkeys]; exact hA
        simp only [processCommits, hk]
        exact ih _ hndt hbt hA2

/-- When every fetched branch's seen-commit entry already equals its fetched
sha, the scan is a no-op. -/
theorem processCommits_noop (resolve : String → String → Option FullCommit)
    (repo : String) (seen : SMap) (bs : List Branch)
    (h : ∀ b ∈ bs, seen (commitKey repo b.name) = some b.sha) :
    processCommits resolve repo seen bs = ⟨seen, [], []⟩ := by
  induction bs with
  | nil => rfl
  | cons b t ih =>
    have hb := h b (List.mem_cons_self b t)
    simp only [processCommits, hb, if_pos rfl]
    exact ih (fun x hx => h x (List.mem_cons_of_mem b hx))

/-! ## Lemmas about `currentBranches` and `resolveNewBranches` -/

theorem mem_currentBranches (bs : List Branch) (n : String) :
    n ∈ currentBranches bs ↔ n ∈ bs.map Branch.name := by
  induction bs with
  | nil => simp [currentBranches]
  | cons b t ih =>
    simp only [currentBranches, List.map_cons, List.mem_cons, List.mem_filter,
      decide_eq_true_eq]
    constructor
    · rintro (rfl | ⟨hm, _⟩)
      · exact Or.inl rfl
      · exact Or.inr (ih.mp hm)
    · rintro (rfl | hm)
      · exact Or.inl rfl
      · by_cases he : n = b.name
        · exact Or.inl he
        · exact Or.inr ⟨ih.mpr hm, he⟩

theorem currentBranches_nodup (bs : List Branch) : (currentBranches bs).Nodup := by
  induction bs with
  | nil => simp [currentBranches]
  | cons b t ih =>
    simp only [currentBranches, List.nodup_cons]
    refine ⟨fun hmem => ?_, ih.filter _⟩
    rw [List.mem_filter] at hmem
    simp at hmem

theorem find?_name_of_mem (bs : List Branch) (n : String) (hn : n ∈ bs.map Branch.name) :
    ∃ b, bs.find? (fun b => decide (b.name = n)) = some b ∧ b ∈ bs ∧ b.name = n := by
  obtain ⟨b0, hb0, hname⟩ := List.mem_map.mp hn
  have hs : (bs.find? (fun b => decide (b.name = n))).isSome := by
    rw [List.find?_isSome]
    exact ⟨b0, hb0, by simp [hname]⟩
  obtain ⟨b, hb⟩ := Option.isSome_iff_exists.mp hs
  refine ⟨b, hb, List.mem_of_find?_eq_some hb, ?_⟩
  have hp := List.find?_some hb
  simpa using hp

theorem resolveNewBranches_events_shape (resolve : String → String → Option FullCommit)
    (repo : String) (bs : List Branch) (ns : List String) :
    ∀ e ∈ (resolveNewBranches resolve repo bs ns).1,
      ∃ m d, e = Event.NewBranch repo m d ∧ m ∈ ns := by
  induction ns with
  | nil => intro e he; simp [resolveNewBranches] at he
  | cons n t ih =>
    intro e he
    cases hf : bs.find? (fun b => decide (b.name = n)) with
    | some b =>
      cases hres : resolve repo b.sha with
      | some d =>
        simp only [resolveNewBranches, hf, hres, List.mem_cons] at he
        rcases he with he | he
        · exact ⟨n, d, he, by simp⟩
        · obtain ⟨m, d2, hd, hm⟩ := ih e he
          exact ⟨m, d2, hd, by simp [hm]⟩
      | none =>
        simp only [resolveNewBranches, hf, hres] at he
        obtain ⟨m, d2, hd, hm⟩ := ih e he
        exact ⟨m, d2, hd, by simp [hm]⟩
    | none =>
      simp only [resolveNewBranches, hf] at he
      obtain ⟨m, d2, hd, hm⟩ := ih e he
      exact ⟨m, d2, hd, by simp [hm]⟩

theorem resolveNewBranches_calls_shape (resolve : String → String → Option FullCommit)
    (repo : String) (bs : List Branch) (ns : List String) :
    ∀ c ∈ (resolveNewBranches resolve repo bs ns).2, c.1 ∈ ns := by
  induction ns with
  | nil => intro c hc; simp [resolveNewBranches] at hc
  | cons n t ih =>
    intro c hc
    cases hf : bs.find? (fun b => decide (b.name = n)) with
    | some b =>
      cases hres : resolve repo b.sha with
      | some d =>
        simp only [resolveNewBranches, hf, hres, List.mem_cons] at hc
        rcases hc with hc | hc
        · simp [hc]
        · simp [ih c hc]
      | none =>
        simp only [resolveNewBranches, hf, hres, List.mem_cons] at hc
        rcases hc with hc | hc
        · simp [hc]
        · simp [ih c hc]
    | none =>
      simp only [resolveNewBranches, hf] at hc
      simp [ih c hc]

theorem resolveNewBranches_filter_not_mem (resolve : String → String → Option FullCommit)
    (repo n : String) (bs : List Branch) (ns : List String) (hn : n ∉ ns) :
    (resolveNewBranches resolve repo bs ns).1.filter (isNewBranchFor n) = [] := by
  rw [List.filter_eq_nil_iff]
  intro e he
  obtain ⟨m, d, hd, hm⟩ := resolveNewBranches_events_shape resolve repo bs ns e he
  subst hd
  simp only [isNewBranchFor, decide_eq_true_eq]
  intro h
  exact hn (h ▸ hm)

theorem resolveNewBranches_calls_filter_not_mem (resolve : String → String → Option FullCommit)
    (repo n : String) (bs : List Branch) (ns : List String) (hn : n ∉ ns) :
    (resolveNewBranches resolve repo bs ns).2.filter (fun c => decide (c.1 = n)) = [] := by
  rw [List.filter_eq_nil_iff]
  intro c hc
  have hm := resolveNewBranches_calls_shape resolve repo bs ns c hc
  simp only [decide_eq_true_eq]
  intro h
  exact hn (h ▸ hm)

theorem resolveNewBranches_no_commit_events (resolve : String → String → Option FullCommit)
    (repo n : String) (bs : List Branch) (ns : List String) :
    (resolveNewBranches resolve repo bs ns).1.filter (isNewCommitFor n) = [] := by
  rw [List.filter_eq_nil_iff]
  intro e he
  obtain ⟨m, d, hd, _⟩ := resolveNewBranches_events_shape resolve repo bs ns e he
  subst hd
  simp [isNewCommitFor]

/-- A duplicate-free name list whose entry `n` resolves successfully yields
exactly one `NewBranch` event for `n`. -/
theorem resolveNewBranches_filter_found (resolve : String → String → Option FullCommit)
    (repo n : String) (bs : List Branch) (ns : List String) (b : Branch) (d : FullCommit)
    (hnd : ns.Nodup) (hn : n ∈ ns)
    (hf : bs.find? (fun b => decide (b.name = n)) = some b)
    (hres : resolve repo b.sha = some d) :
    (resolveNewBranches resolve repo bs ns).1.filter (isNewBranchFor n) =
      [Event.NewBranch repo n d] := by
  induction ns with
  | nil => cases hn
  | cons m t ih =>
    obtain ⟨hmt, hndt⟩ := List.nodup_cons.mp hnd
    rcases List.mem_cons.mp hn with rfl | hnt
    · simp only [resolveNewBranches, hf, hres]
      rw [List.filter_cons_of_pos (by simp [isNewBranchFor])]
      rw [resolveNewBranches_filter_not_mem resolve repo n bs t hmt]
    · have hmn : m ≠ n := fun he => hmt (he ▸ hnt)
      cases hfm : bs.find? (fun b => decide (b.name = m)) with
      | some bm =>
        cases hresm : resolve repo bm.sha with
        | some dm =>
          simp only [resolveNewBranches, hfm, hresm]
          rw [List.filter_cons_of_neg (by simp [isNewBranchFor, hmn])]
          exact ih hndt hnt
        | none =>
          simp only [resolveNewBranches, hfm, hresm]
          exact ih hndt hnt
      | none =>
        simp only [resolveNewBranches, hfm]
        exact ih hndt hnt

/-- A duplicate-free name list whose entry `n` fails to resolve yields no
`NewBranch` event for `n`. -/
theorem resolveNewBranches_filter_found_fail (resolve : String → String → Option FullCommit)
    (repo n : String) (bs : List Branch) (ns : List String) (b : Branch)
    (hnd : ns.Nodup) (hn : n ∈ ns)
    (hf : bs.find? (fun b => decide (b.name = n)) = some b)
    (hres : resolve repo b.sha = none) :
    (resolveNewBranches resolve repo bs ns).1.filter (isNewBranchFor n) = [] := by
  induction ns with
  | nil => cases hn
  | cons m t ih =>
    obtain ⟨hmt, hndt⟩ := List.nodup_cons.mp hnd
    rcases List.mem_cons.mp hn with rfl | hnt
    · simp only [resolveNewBranches, hf, hres]
      exact resolveNewBranches_filter_not_mem resolve repo n bs t hmt
    · have hmn : m ≠ n := fun he => hmt (he ▸ hnt)
      cases hfm : bs.find? (fun b => decide (b.name = m)) with
      | some bm =>
        cases hresm : resolve repo bm.sha with
        | some dm =>
          simp only [resolveNewBranches, hfm, hresm]
          rw [List.filter_cons_of_neg (by simp [isNewBranchFor, hmn])]
          exact ih hndt hnt
        | none =>
          simp only [resolveNewBranches, hfm, hresm]
          exact ih hndt hnt
      | none =>
        simp only [resolveNewBranches, hfm]
        exact ih hndt hnt

/-! ## Lemmas about `processBranchCycle` -/

theorem processBranchCycle_eq_some (resolve : String → String → Option FullCommit)
    (repo : String) (seenC : SMap) (seenB : BMap) (bs : List Branch) (s : List String)
    (hs : seenB repo = some s) :
    processBranchCycle resolve repo seenC seenB bs =
      ⟨(processCommits resolve repo seenC bs).seen,
        updB seenB repo (s ++ (currentBranches bs).filter (fun n => !decide (n ∈ s))),
        (processCommits resolve repo seenC bs).events ++
          (resolveNewBranches resolve repo bs
            ((currentBranches bs).filter (fun n => !decide (n ∈ s)))).1,
        (processCommits resolve repo seenC bs).calls ++
          (resolveNewBranches resolve repo bs
            ((currentBranches bs).filter (fun n => !decide (n ∈ s)))).2⟩ := by
  unfold processBranchCycle
  rw [hs]

theorem processBranchCycle_eq_none (resolve : String → String → Option FullCommit)
    (repo : String) (seenC : SMap) (seenB : BMap) (bs : List Branch)
    (hs : seenB repo = none) :
    processBranchCycle resolve repo seenC seenB bs =
      ⟨(processCommits resolve repo seenC bs).seen,
        updB seenB repo (currentBranches bs),
        (processCommits resolve repo seenC bs).events,
        (processCommits resolve repo seenC bs).calls⟩ := by
  unfold processBranchCycle
  rw [hs]

theorem processBranchCycle_seenCommits (resolve : String → String → Option FullCommit)
    (repo : String) (seenC : SMap) (seenB : BMap) (bs : List Branch) :
    (processBranchCycle resolve repo seenC seenB bs).seenCommits =
      (processCommits resolve repo seenC bs).seen := by
  cases hs : seenB repo with
  | some s => rw [processBranchCycle_eq_some resolve repo seenC seenB bs s hs]
  | none => rw [processBranchCycle_eq_none resolve repo seenC seenB bs hs]

theorem processBranchCycle_filter_commit (resolve : String → String → Option FullCommit)
    (repo n : String) (seenC : SMap) (seenB : BMap) (bs : List Branch) :
    (processBranchCycle resolve repo seenC seenB bs).events.filter (isNewCommitFor n) =
      (processCommits resolve repo seenC bs).events.filter (isNewCommitFor n) := by
  cases hs : seenB repo with
  | some s =>
    rw [processBranchCycle_eq_some resolve repo seenC seenB bs s hs]
    simp only
    rw [List.filter_append, resolveNewBranches_no_commit_events, List.append_nil]
  | none => rw [processBranchCycle_eq_none resolve repo seenC seenB bs hs]

/-- A name already in the repository's seen-branch set never produces a
`NewBranch` event. -/
theorem processBranchCycle_filter_branch_of_seen (resolve : String → String → Option FullCommit)
    (repo n : String) (seenC : SMap) (seenB : BMap) (bs : List Branch) (s : List String)
    (hs : seenB repo = some s) (hn : n ∈ s) :
    (processBranchCycle resolve repo seenC seenB bs).events.filter (isNewBranchFor n) = [] := by
  rw [processBranchCycle_eq_some resolve repo seenC seenB bs s hs]
  simp only
  rw [List.filter_append, processCommits_no_branch_events]
  rw [resolveNewBranches_filter_not_mem]
  · rfl
  · intro hmem
    rw [List.mem_filter] at hmem
    simp only [Bool.not_eq_eq_eq_not, Bool.not_true, decide_eq_false_iff_not] at hmem
    exact hmem.2 hn

/-- When every branch is commit-up-to-date and every current name is already
seen, a branch cycle emits nothing. -/
theorem processBranchCycle_noEvents (resolve : String → String → Option FullCommit)
    (repo : String) (seenC : SMap) (seenB : BMap) (bs : List Branch) (s : List String)
    (hC : ∀ b ∈ bs, seenC (commitKey repo b.name) = some b.sha)
    (hs : seenB repo = some s) (hsub : ∀ n ∈ currentBranches bs, n ∈ s) :
    (processBranchCycle resolve repo seenC seenB bs).events = [] := by
  rw [processBranchCycle_eq_some resolve repo seenC seenB bs s hs]
  simp only
  rw [processCommits_noop resolve repo seenC bs hC]
  have hnn : (currentBranches bs).filter (fun n => !decide (n ∈ s)) = [] := by
    rw [List.filter_eq_nil_iff]
    intro n hn
    simp [hsub n hn]
  rw [hnn]
  rfl

/-! ## Lemmas about `scanPRs` -/

theorem applyUser_id (pr : PullRequest) (u : Option User) : (applyUser pr u).id = pr.id := by
  cases u <;> rfl

theorem scanPRs_entry_grows (getUser : String → Option User) (entry : List Nat)
    (prs : List PullRequest) : ∀ x ∈ entry, x ∈ (scanPRs getUser entry prs).1 := by
  induction prs generalizing entry with
  | nil => intro x hx; simpa [scanPRs] using hx
  | cons pr rest ih =>
    intro x hx
    by_cases hp : pr.id ∈ entry
    · simp only [scanPRs, if_pos hp]
      exact ih entry x hx
    · simp only [scanPRs, if_neg hp]
      exact ih (entry ++ [pr.id]) x (by simp [hx])

theorem scanPRs_notes_id_mem (getUser : String → Option User) (entry : List Nat)
    (prs : List PullRequest) :
    ∀ pr2 ∈ (scanPRs getUser entry prs).2.1, pr2.id ∈ (scanPRs getUser entry prs).1 := by
  induction prs generalizing entry with
  | nil => intro pr2 h2; simp [scanPRs] at h2
  | cons pr rest ih =>
    intro pr2 h2
    by_cases hp : pr.id ∈ entry
    · simp only [scanPRs, if_pos hp] at h2 ⊢
      exact ih entry pr2 h2
    · simp only [scanPRs, if_neg hp] at h2 ⊢
      rcases List.mem_cons.mp h2 with rfl | h2
      · rw [applyUser_id]
        exact scanPRs_entry_grows getUser _ rest pr.id (by simp)
      · exact ih _ pr2 h2

theorem scanPRs_dedup (getUser : String → Option User) (entry : List Nat)
    (prs : List PullRequest) (pid : Nat) (hp : pid ∈ entry) :
    ∀ pr2 ∈ (scanPRs getUser entry prs).2.1, pr2.id ≠ pid := by
  induction prs generalizing entry with
  | nil => intro pr2 h2; simp [scanPRs] at h2
  | cons pr rest ih =>
    intro pr2 h2
    by_cases hpe : pr.id ∈ entry
    · simp only [scanPRs, if_pos hpe] at h2
      exact ih entry hp pr2 h2
    · simp only [scanPRs, if_neg hpe] at h2
      rcases List.mem_cons.mp h2 with rfl | h2
      · rw [applyUser_id]
        exact fun he => hpe (he ▸ hp)
      · exact ih (entry ++ [pr.id]) (by simp [hp]) pr2 h2

theorem scanPRs_covers (getUser : String → Option User) (entry : List Nat)
    (prs : List PullRequest) : ∀ pr ∈ prs, pr.id ∈ (scanPRs getUser entry prs).1 := by
  induction prs generalizing entry with
  | nil => intro pr hpr; cases hpr
  | cons pr rest ih =>
    intro pr2 h2
    by_cases hpe : pr.id ∈ entry
    · simp only [scanPRs, if_pos hpe]
      rcases List.mem_cons.mp h2 with rfl | h2
      · exact scanPRs_entry_grows getUser entry rest pr2.id hpe
      · exact ih entry pr2 h2
    · simp only [scanPRs, if_neg hpe]
      rcases List.mem_cons.mp h2 with rfl | h2
      · exact scanPRs_entry_grows getUser _ rest pr2.id (by simp)
      · exact ih _ pr2 h2

theorem scanPRs_noop (getUser : String → Option User) (entry : List Nat)
    (prs : List PullRequest) (h : ∀ pr ∈ prs, pr.id ∈ entry) :
    scanPRs getUser entry prs = (entry, [], []) := by
  induction prs with
  | nil => rfl
  | cons pr rest ih =>
    have hp := h pr (List.mem_cons_self pr rest)
    simp only [scanPRs, if_pos hp]
    exact ih (fun x hx => h x (List.mem_cons_of_mem pr hx))

theorem processPRs_seenPRs (getUser : String → Option User) (repo : String) (seenP : PMap)
    (prs : List PullRequest) :
    (processPRs getUser repo seenP prs).seenPRs =
      updP seenP repo (scanPRs getUser ((seenP repo).getD []) prs).1 := rfl

theorem processPRs_noEvents (getUser : String → Option User) (repo : String) (seenP : PMap)
    (prs : List PullRequest) (h : ∀ pr ∈ prs, pr.id ∈ (seenP repo).getD []) :
    (processPRs getUser repo seenP prs).events = [] := by
  unfold processPRs
  rw [scanPRs_noop getUser _ prs h]
  rfl

/-! ## Claims -/

/-- C1 (change detection): for a branch `b` whose seen-commit map entry for
key `{repo}/{branch}` holds pointer `A`, processing a freshly fetched branch
collection in which `b`'s head pointer is `B ≠ A` (and `B`'s detail resolves)
produces exactly one `NewCommit` event, that event references `B` (not `A`)
together with the detail resolved for `B`, and after the cycle the
seen-commit entry for `{repo}/{branch}` equals `B`.  This holds regardless
of whether `B` is an ancestor of `A` — only pointer equality is compared. -/
theorem claim_C1_change_detection (resolve : String → String → Option FullCommit)
    (repo A : String) (d : FullCommit) (seenC : SMap) (seenB : BMap)
    (b : Branch) (bs : List Branch)
    (hnd : (bs.map Branch.name).Nodup) (hb : b ∈ bs)
    (hA : seenC (commitKey repo b.name) = some A) (hne : A ≠ b.sha)
    (hres : resolve repo b.sha = some d) :
    (processBranchCycle resolve repo seenC seenB bs).events.filter
        (isNewCommitFor b.name) = [Event.NewCommit repo b.name b.sha d] ∧
    (processBranchCycle resolve repo seenC seenB bs).seenCommits
        (commitKey repo b.name) = some b.sha := by
  constructor
  · rw [processBranchCycle_filter_commit]
    exact processCommits_stale_resolved resolve repo A d seenC b bs hnd hb hA hne hres
  · rw [processBranchCycle_seenCommits]
    exact processCommits_seen_final resolve repo seenC b bs hnd hb

/-- Witness for C1 at a concrete input. -/
theorem claim_C1_witness :
    (processBranchCycle (fun _ s => if s = "B" then some ⟨"u", "m", "a"⟩ else none)
        "octo/repo" (fun k => if k = "octo/repo/main" then some "A" else none)
        (fun _ => none) [⟨"main", "B"⟩]).events.filter (isNewCommitFor "main") =
      [Event.NewCommit "octo/repo" "main" "B" ⟨"u", "m", "a"⟩] ∧
    (processBranchCycle (fun _ s => if s = "B" then some ⟨"u", "m", "a"⟩ else none)
        "octo/repo" (fun k => if k = "octo/repo/main" then some "A" else none)
        (fun _ => none) [⟨"main", "B"⟩]).seenCommits
        (commitKey "octo/repo" "main") = some "B" :=
  claim_C1_change_detection _ "octo/repo" "A" ⟨"u", "m", "a"⟩ _ _ ⟨"main", "B"⟩ _
    (by decide) (by decide) (by decide) (by decide) (by decide)

/-- C5 (baseline suppression): for a branch whose key `{repo}/{branch}` is
absent from the seen-commit map (first sighting), processing the fetched
collection produces zero `NewCommit` events for it and records its head
pointer as the seen entry for the key. -/
theorem claim_C5_baseline_suppression (resolve : String → String → Option FullCommit)
    (repo : String) (seenC : SMap) (seenB : BMap) (b : Branch) (bs : List Branch)
    (hnd : (bs.map Branch.name).Nodup) (hb : b ∈ bs)
    (hA : seenC (commitKey repo b.name) = none) :
    (processBranchCycle resolve repo seenC seenB bs).events.filter
        (isNewCommitFor b.name) = [] ∧
    (processBranchCycle resolve repo seenC seenB bs).seenCommits
        (commitKey repo b.name) = some b.sha := by
  constructor
  · rw [processBranchCycle_filter_commit]
    exact processCommits_first_sighting resolve repo seenC b bs hnd hb hA
  · rw [processBranchCycle_seenCommits]
    exact processCommits_seen_final resolve repo seenC b bs hnd hb

/-- Witness for C5 at a concrete input. -/
theorem claim_C5_witness :
    (processBranchCycle (fun _ _ => some ⟨"u", "m", "a"⟩) "octo/repo"
        (fun _ => none) (fun _ => none) [⟨"main", "B"⟩]).events.filter
        (isNewCommitFor "main") = [] ∧
    (processBranchCycle (fun _ _ => some ⟨"u", "m", "a"⟩) "octo/repo"
        (fun _ => none) (fun _ => none) [⟨"main", "B"⟩]).seenCommits
        (commitKey "octo/repo" "main") = some "B" :=
  claim_C5_baseline_suppression _ "octo/repo" _ _ ⟨"main", "B"⟩ _
    (by decide) (by decide) (by decide)

/-- C4 (failure isolation): for a branch whose fetched head pointer differs
from the stored seen pointer, if resolving the commit detail fails then no
`NewCommit` event is emitted for it, the seen-commit entry is nevertheless
updated to the new pointer, and in any subsequent cycle whose collection
still carries that pointer for that branch (and whose name is in the
seen-branch set) no resolution call is made for that branch again. -/
theorem claim_C4_failure_updates_seen (resolve : String → String → Option FullCommit)
    (repo A : String) (seenC : SMap) (seenB : BMap) (b : Branch) (bs : List Branch)
    (hnd : (bs.map Branch.name).Nodup) (hb : b ∈ bs)
    (hA : seenC (commitKey repo b.name) = some A) (hne : A ≠ b.sha)
    (hfail : resolve repo b.sha = none) :
    (processBranchCycle resolve repo seenC seenB bs).events.filter
        (isNewCommitFor b.name) = [] ∧
    (processBranchCycle resolve repo seenC seenB bs).seenCommits
        (commitKey repo b.name) = some b.sha ∧
    (∀ (resolve2 : String → String → Option FullCommit) (seenB2 : BMap)
        (s2 : List String) (bs2 : List Branch),
      (bs2.map Branch.name).Nodup → b ∈ bs2 → seenB2 repo = some s2 → b.name ∈ s2 →
      (processBranchCycle resolve2 repo
          (processBranchCycle resolve repo seenC seenB bs).seenCommits
          seenB2 bs2).calls.filter (fun c => decide (c.1 = b.name)) = []) := by
  have hfinal : (processBranchCycle resolve repo seenC seenB bs).seenCommits
      (commitKey repo b.name) = some b.sha := by
    rw [processBranchCycle_seenCommits]
    exact processCommits_seen_final resolve repo seenC b bs hnd hb
  refine ⟨?_, hfinal, ?_⟩
  · rw [processBranchCycle_filter_commit]
    exact processCommits_stale_failed resolve repo A seenC b bs hnd hb hA hne hfail
  · intro resolve2 seenB2 s2 bs2 hnd2 hb2 hs2 hbn2
    rw [processBranchCycle_eq_some resolve2 repo _ seenB2 bs2 s2 hs2]
    simp only
    rw [List.filter_append]
    rw [(processCommits_up_to_date resolve2 repo _ b bs2 hnd2 hb2 hfinal).2]
    rw [resolveNewBranches_calls_filter_not_mem]
    · rfl
    · intro hmem
      rw [List.mem_filter] at hmem
      simp only [Bool.not_eq_eq_eq_not, Bool.not_true, decide_eq_false_iff_not] at hmem
      exact hmem.2 hbn2

/-- Witness for C4 at a concrete input. -/
theorem claim_C4_witness :
    (processBranchCycle (fun _ _ => none) "octo/repo"
        (fun k => if k = "octo/repo/main" then some "A" else none)
        (fun _ => none) [⟨"main", "B"⟩]).events.filter (isNewCommitFor "main") = [] ∧
    (processBranchCycle (fun _ _ => none) "octo/repo"
        (fun k => if k = "octo/repo/main" then some "A" else none)
        (fun _ => none) [⟨"main", "B"⟩]).seenCommits
        (commitKey "octo/repo" "main") = some "B" ∧
    (∀ (resolve2 : String → String → Option FullCommit) (seenB2 : BMap)
        (s2 : List String) (bs2 : List Branch),
      (bs2.map Branch.name).Nodup → (⟨"main", "B"⟩ : Branch) ∈ bs2 →
      seenB2 "octo/repo" = some s2 → "main" ∈ s2 →
      (processBranchCycle resolve2 "octo/repo"
          (processBranchCycle (fun _ _ => none) "octo/repo"
            (fun k => if k = "octo/repo/main" then some "A" else none)
            (fun _ => none) [⟨"main", "B"⟩]).seenCommits
          seenB2 bs2).calls.filter (fun c => decide (c.1 = "main")) = []) :=
  claim_C4_failure_updates_seen _ "octo/repo" "A" _ _ ⟨"main", "B"⟩ _
    (by decide) (by decide) (by decide) (by decide) (by decide)

/-- C6 (new-branch detection): for a repository with no prior seen-branch
entry, a fetched collection stores the full observed branch-name set and
emits zero `NewBranch` events; for a repository with a prior entry (and
resolvable branch heads), exactly one `NewBranch` event is produced per
observed name not in the prior set, and none for a name already seen. -/
theorem claim_C6_new_branch_detection (resolve : String → String → Option FullCommit)
    (repo : String) (seenC : SMap) (seenB : BMap) (bs : List Branch) :
    (seenB repo = none →
      (processBranchCycle resolve repo seenC seenB bs).seenBranches repo =
          some (currentBranches bs) ∧
      (processBranchCycle resolve repo seenC seenB bs).events.filter
          isNewBranchEvent = []) ∧
    (∀ s, seenB repo = some s →
      (∀ b ∈ bs, (resolve repo b.sha).isSome = true) →
      (∀ n, n ∈ currentBranches bs → n ∉ s →
        ((processBranchCycle resolve repo seenC seenB bs).events.filter
          (isNewBranchFor n)).length = 1) ∧
      (∀ n, n ∈ s →
        (processBranchCycle resolve repo seenC seenB bs).events.filter
          (isNewBranchFor n) = [])) := by
  constructor
  · intro hs
    rw [processBranchCycle_eq_none resolve repo seenC seenB bs hs]
    exact ⟨updB_self seenB repo (currentBranches bs),
      processCommits_no_branch_events_any resolve repo seenC bs⟩
  · intro s hs hres
    constructor
    · intro n hn hns
      rw [processBranchCycle_eq_some resolve repo seenC seenB bs s hs]
      simp only
      rw [List.filter_append, processCommits_no_branch_events]
      have hnn : n ∈ (currentBranches bs).filter (fun n => !decide (n ∈ s)) := by
        rw [List.mem_filter]
        exact ⟨hn, by simp [hns]⟩
      have hnd2 : ((currentBranches bs).filter (fun n => !decide (n ∈ s))).Nodup :=
        (currentBranches_nodup bs).filter _
      obtain ⟨b, hf, hbmem, hbname⟩ :=
        find?_name_of_mem bs n ((mem_currentBranches bs n).mp hn)
      obtain ⟨d, hd⟩ := Option.isSome_iff_exists.mp (hres b hbmem)
      rw [resolveNewBranches_filter_found resolve repo n bs _ b d hnd2 hnn hf hd]
      rfl
    · intro n hn
      exact processBranchCycle_filter_branch_of_seen resolve repo n seenC seenB bs s hs hn

/-- Witness for C6 at a concrete input (both conjuncts exercised). -/
theorem claim_C6_witness :
    ((processBranchCycle (fun _ _ => some ⟨"u", "m", "a"⟩) "octo/repo" (fun _ => none)
        (fun r => if r = "octo/repo" then some ["main"] else none)
        [⟨"main", "B"⟩, ⟨"feature-x", "C"⟩]).events.filter
        (isNewBranchFor "feature-x")).length = 1 ∧
    (processBranchCycle (fun _ _ => some ⟨"u", "m", "a"⟩) "octo/repo" (fun _ => none)
        (fun r => if r = "octo/repo" then some ["main"] else none)
        [⟨"main", "B"⟩, ⟨"feature-x", "C"⟩]).events.filter
        (isNewBranchFor "main") = [] := by
  have h := (claim_C6_new_branch_detection (fun _ _ => some ⟨"u", "m", "a"⟩) "octo/repo"
    (fun _ => none) (fun r => if r = "octo/repo" then some ["main"] else none)
    [⟨"main", "B"⟩, ⟨"feature-x", "C"⟩]).2 ["main"] (by decide) (by decide)
  exact ⟨h.1 "feature-x" (by decide) (by decide), h.2 "main" (by decide)⟩

/-- C10 (lost branch notification): for a newly observed branch name of an
already-seen repository, the name is added to the seen-branch set even when
its head-commit resolution fails, so the `NewBranch` event is skipped and is
never emitted in any later cycle either. -/
theorem claim_C10_branch_notification_lost (resolve : String → String → Option FullCommit)
    (repo n : String) (seenC : SMap) (seenB : BMap) (bs : List Branch)
    (s : List String) (b : Branch)
    (hs : seenB repo = some s) (hn : n ∈ currentBranches bs) (hns : n ∉ s)
    (hfind : bs.find? (fun br => decide (br.name = n)) = some b)
    (hfail : resolve repo b.sha = none) :
    (processBranchCycle resolve repo seenC seenB bs).events.filter
        (isNewBranchFor n) = [] ∧
    (∃ s1, (processBranchCycle resolve repo seenC seenB bs).seenBranches repo =
        some s1 ∧ n ∈ s1) ∧
    (∀ (resolve2 : String → String → Option FullCommit) (seenC2 : SMap)
        (bs2 : List Branch),
      (processBranchCycle resolve2 repo seenC2
          (processBranchCycle resolve repo seenC seenB bs).seenBranches
          bs2).events.filter (isNewBranchFor n) = []) := by
  have hnn : n ∈ (currentBranches bs).filter (fun n => !decide (n ∈ s)) := by
    rw [List.mem_filter]
    exact ⟨hn, by simp [hns]⟩
  have hnd2 : ((currentBranches bs).filter (fun n => !decide (n ∈ s))).Nodup :=
    (currentBranches_nodup bs).filter _
  have hset : (processBranchCycle resolve repo seenC seenB bs).seenBranches repo =
      some (s ++ (currentBranches bs).filter (fun n => !decide (n ∈ s))) := by
    rw [processBranchCycle_eq_some resolve repo seenC seenB bs s hs]
    exact updB_self seenB repo _
  refine ⟨?_, ⟨_, hset, List.mem_append.mpr (Or.inr hnn)⟩, ?_⟩
  · rw [processBranchCycle_eq_some resolve repo seenC seenB bs s hs]
    simp only
    rw [List.filter_append, processCommits_no_branch_events]
    rw [resolveNewBranches_filter_found_fail resolve repo n bs _ b hnd2 hnn hfind hfail]
    rfl
  · intro resolve2 seenC2 bs2
    exact processBranchCycle_filter_branch_of_seen resolve2 repo n seenC2 _ bs2 _
      hset (List.mem_append.mpr (Or.inr hnn))

/-- Witness for C10 at a concrete input. -/
theorem claim_C10_witness :
    (processBranchCycle (fun _ _ => none) "octo/repo" (fun _ => none)
        (fun r => if r = "octo/repo" then some ["main"] else none)
        [⟨"feature-x", "C"⟩]).events.filter (isNewBranchFor "feature-x") = [] ∧
    (∃ s1, (processBranchCycle (fun _ _ => none) "octo/repo" (fun _ => none)
        (fun r => if r = "octo/repo" then some ["main"] else none)
        [⟨"feature-x", "C"⟩]).seenBranches "octo/repo" = some s1 ∧ "feature-x" ∈ s1) ∧
    (∀ (resolve2 : String → String → Option FullCommit) (seenC2 : SMap)
        (bs2 : List Branch),
      (processBranchCycle resolve2 "octo/repo" seenC2
          (processBranchCycle (fun _ _ => none) "octo/repo" (fun _ => none)
            (fun r => if r = "octo/repo" then some ["main"] else none)
            [⟨"feature-x", "C"⟩]).seenBranches
          bs2).events.filter (isNewBranchFor "feature-x") = []) :=
  claim_C10_branch_notification_lost _ "octo/repo" "feature-x" _ _ _ ["main"]
    ⟨"feature-x", "C"⟩ (by decide) (by decide) (by decide) (by decide) (by decide)

/-- C7 (PR dedup invariant): a pull-request id already in the repository's
seen-PR set is never notified again, whatever its mutable fields now say;
the seen-PR set only grows; and every id that is notified is in the final
seen-PR set (it is recorded before the notification is emitted). -/
theorem claim_C7_pr_dedup (getUser : String → Option User) (repo : String)
    (seenP : PMap) (prs : List PullRequest) (pid : Nat)
    (hseen : pid ∈ (seenP repo).getD []) :
    (∀ e ∈ (processPRs getUser repo seenP prs).events, prEventId e ≠ some pid) ∧
    (∀ x ∈ (seenP repo).getD [],
      x ∈ ((processPRs getUser repo seenP prs).seenPRs repo).getD []) ∧
    (∀ e ∈ (processPRs getUser repo seenP prs).events, ∀ i, prEventId e = some i →
      i ∈ ((processPRs getUser repo seenP prs).seenPRs repo).getD []) := by
  have hfin : ((processPRs getUser repo seenP prs).seenPRs repo).getD [] =
      (scanPRs getUser ((seenP repo).getD []) prs).1 := by
    rw [processPRs_seenPRs, updP_self, Option.getD_some]
  refine ⟨?_, ?_, ?_⟩
  · intro e he
    obtain ⟨pr2, hpr2, rfl⟩ := List.mem_map.mp he
    have := scanPRs_dedup getUser ((seenP repo).getD []) prs pid hseen pr2 hpr2
    simp only [prEventId, ne_eq, Option.some.injEq]
    exact this
  · intro x hx
    rw [hfin]
    exact scanPRs_entry_grows getUser _ prs x hx
  · intro e he i hi
    obtain ⟨pr2, hpr2, rfl⟩ := List.mem_map.mp he
    simp only [prEventId, Option.some.injEq] at hi
    rw [hfin, ← hi]
    exact scanPRs_notes_id_mem getUser _ prs pr2 hpr2

/-- Witness for C7 at a concrete input. -/
theorem claim_C7_witness :
    (∀ e ∈ (processPRs (fun _ => none) "octo/repo"
        (fun r => if r = "octo/repo" then some [42] else none)
        [⟨42, "url", "new title", ⟨"alice", none⟩⟩]).events, prEventId e ≠ some 42) ∧
    (∀ x ∈ ((fun r => if r = "octo/repo" then some [42] else none) "octo/repo").getD [],
      x ∈ ((processPRs (fun _ => none) "octo/repo"
        (fun r => if r = "octo/repo" then some [42] else none)
        [⟨42, "url", "new title", ⟨"alice", none⟩⟩]).seenPRs "octo/repo").getD []) ∧
    (∀ e ∈ (processPRs (fun _ => none) "octo/repo"
        (fun r => if r = "octo/repo" then some [42] else none)
        [⟨42, "url", "new title", ⟨"alice", none⟩⟩]).events, ∀ i, prEventId e = some i →
      i ∈ ((processPRs (fun _ => none) "octo/repo"
        (fun r => if r = "octo/repo" then some [42] else none)
        [⟨42, "url", "new title", ⟨"alice", none⟩⟩]).seenPRs "octo/repo").getD []) :=
  claim_C7_pr_dedup _ "octo/repo" _ _ 42 (by decide)

/-- C8 (not-modified frame): when the fetch of a repository's branches or
pulls resource reports 304, the check performs no detail-resolution calls,
emits no events, and leaves the entire state — seen-commit map, seen-branch
set, seen-PR set and etag table — unchanged (the repository has prior
seen-branch and seen-PR entries, as any state that has stored a validator
for it does). -/
theorem claim_C8_not_modified_frame (resolve : String → String → Option FullCommit)
    (getUser : String → Option User) (repo : String) (st : FullState)
    (s : List String) (p : List Nat)
    (hB : st.seenBranches repo = some s) (hP : st.seenPRs repo = some p)
    (respB : HttpResponse Branch) (respP : HttpResponse PullRequest)
    (hrB : respB.status = 304) (hrP : respP.status = 304) :
    checkBranchesAndCommits resolve repo st respB = Except.ok (st, [], []) ∧
    checkPullRequests getUser repo st respP = Except.ok (st, [], []) := by
  have hpagedB : get_paged (st.etags (branchesUrl repo)) respB =
      Except.ok (([] : List Branch), st.etags (branchesUrl repo)) := by
    unfold get_paged
    rw [if_pos hrB]
  have hpagedP : get_paged (st.etags (pullsUrl repo)) respP =
      Except.ok (([] : List PullRequest), st.etags (pullsUrl repo)) := by
    unfold get_paged
    rw [if_pos hrP]
  have hcycle : processBranchCycle resolve repo st.seenCommits st.seenBranches [] =
      ⟨st.seenCommits, st.seenBranches, [], []⟩ := by
    rw [processBranchCycle_eq_some resolve repo st.seenCommits st.seenBranches [] s hB]
    simp only [currentBranches, List.filter_nil, List.append_nil]
    rw [updB_eq_self st.seenBranches repo s hB]
    rfl
  have hprs : processPRs getUser repo st.seenPRs [] = ⟨st.seenPRs, [], []⟩ := by
    show PRCycleResult.mk (updP st.seenPRs repo ((st.seenPRs repo).getD [])) [] [] = _
    rw [hP, Option.getD_some, updP_eq_self st.seenPRs repo p hP]
  constructor
  · unfold checkBranchesAndCommits
    rw [hpagedB]
    simp only [hcycle, updateEtag_same]
  · unfold checkPullRequests
    rw [hpagedP]
    simp only [hprs, updateEtag_same]

/-- Witness for C8 at a concrete input. -/
theorem claim_C8_witness :
    checkBranchesAndCommits (fun _ _ => none) "octo/repo"
        ⟨fun _ => none, fun r => if r = "octo/repo" then some ["main"] else none,
          fun r => if r = "octo/repo" then some [42] else none,
          fun _ => some "W/e1"⟩ ⟨304, none, none⟩ =
      Except.ok (⟨fun _ => none, fun r => if r = "octo/repo" then some ["main"] else none,
          fun r => if r = "octo/repo" then some [42] else none,
          fun _ => some "W/e1"⟩, [], []) ∧
    checkPullRequests (fun _ => none) "octo/repo"
        ⟨fun _ => none, fun r => if r = "octo/repo" then some ["main"] else none,
          fun r => if r = "octo/repo" then some [42] else none,
          fun _ => some "W/e1"⟩ ⟨304, none, none⟩ =
      Except.ok (⟨fun _ => none, fun r => if r = "octo/repo" then some ["main"] else none,
          fun r => if r = "octo/repo" then some [42] else none,
          fun _ => some "W/e1"⟩, [], []) :=
  claim_C8_not_modified_frame _ _ "octo/repo" _ ["main"] [42]
    (by decide) (by decide) _ _ rfl rfl

/-- C9 (idempotence under unchanged input): running one cycle on fetched
branch and PR collections and then a second cycle on identical collections
(same branch names and head pointers, same PR ids) produces zero events in
the second cycle, for any resolution oracles. -/
theorem claim_C9_idempotence (resolve resolve2 : String → String → Option FullCommit)
    (getUser getUser2 : String → Option User) (repo : String) (st0 : NState)
    (bs : List Branch) (prs : List PullRequest)
    (hnd : (bs.map Branch.name).Nodup) :
    (runCycle resolve2 getUser2 repo
      (runCycle resolve getUser repo st0 bs prs).1 bs prs).2 = [] := by
  have hC1seen : ∀ b ∈ bs,
      (processBranchCycle resolve repo st0.seenCommits st0.seenBranches bs).seenCommits
        (commitKey repo b.name) = some b.sha := by
    intro b hb
    rw [processBranchCycle_seenCommits]
    exact processCommits_seen_final resolve repo st0.seenCommits b bs hnd hb
  have hBsub : ∃ s1,
      (processBranchCycle resolve repo st0.seenCommits st0.seenBranches bs).seenBranches
        repo = some s1 ∧ ∀ n ∈ currentBranches bs, n ∈ s1 := by
    cases hs : st0.seenBranches repo with
    | some s =>
      refine ⟨s ++ (currentBranches bs).filter (fun n => !decide (n ∈ s)), ?_, ?_⟩
      · rw [processBranchCycle_eq_some resolve repo _ _ bs s hs]
        exact updB_self st0.seenBranches repo _
      · intro n hn
        by_cases hns : n ∈ s
        · exact List.mem_append.mpr (Or.inl hns)
        · refine List.mem_append.mpr (Or.inr ?_)
          rw [List.mem_filter]
          exact ⟨hn, by simp [hns]⟩
    | none =>
      refine ⟨currentBranches bs, ?_, fun n hn => hn⟩
      rw [processBranchCycle_eq_none resolve repo _ _ bs hs]
      exact updB_self st0.seenBranches repo _
  obtain ⟨s1, hs1, hsub1⟩ := hBsub
  have hbranch : (processBranchCycle resolve2 repo
      (processBranchCycle resolve repo st0.seenCommits st0.seenBranches bs).seenCommits
      (processBranchCycle resolve repo st0.seenCommits st0.seenBranches bs).seenBranches
      bs).events = [] :=
    processBranchCycle_noEvents resolve2 repo _ _ bs s1 hC1seen hs1 hsub1
  have hpr : (processPRs getUser2 repo
      (processPRs getUser repo st0.seenPRs prs).seenPRs prs).events = [] := by
    apply processPRs_noEvents
    intro pr hpr2
    rw [processPRs_seenPRs, updP_self, Option.getD_some]
    exact scanPRs_covers getUser _ prs pr hpr2
  simp only [runCycle]
  rw [hbranch, hpr]
  rfl

/-- Witness for C9 at a concrete input. -/
theorem claim_C9_witness :
    (runCycle (fun _ _ => some ⟨"u", "m", "a"⟩) (fun _ => some ⟨"alice", none⟩) "octo/repo"
      (runCycle (fun _ _ => some ⟨"u", "m", "a"⟩) (fun _ => some ⟨"alice", none⟩) "octo/repo"
        ⟨fun _ => none, fun _ => none, fun _ => none⟩
        [⟨"main", "B"⟩] [⟨42, "url", "t", ⟨"alice", none⟩⟩]).1
      [⟨"main", "B"⟩] [⟨42, "url", "t", ⟨"alice", none⟩⟩]).2 = [] :=
  claim_C9_idempotence _ _ _ _ "octo/repo" _ [⟨"main", "B"⟩]
    [⟨42, "url", "t", ⟨"alice", none⟩⟩] (by decide)

/-- C2 counterexample: the claim says the caller can distinguish the
not-modified result of `get_paged` from a successful fetch of an empty
collection; but at this concrete input the two results are the very same
value, so no caller can distinguish them. -/
theorem claim_C2_counterexample :
    @get_paged Branch (some "W/abc") ⟨304, none, none⟩ =
      @get_paged Branch (some "W/abc") ⟨200, some "W/abc", some []⟩ := rfl

/-- C2 as amended: on a 304 response `get_paged` returns the empty item list
together with the validator that was supplied — a value of the same shape as
a fresh empty fetch, not a distinguished `Unchanged` variant; the engine
therefore processes it as an empty collection, which (for a repository with
a prior seen-branch entry) mutates no dedup state, makes no resolution
calls and emits no events, so the observable behavior still matches "no new
information: reuse the last known state". -/
theorem claim_C2_amended (v : String) (resp : HttpResponse Branch)
    (h : resp.status = 304) (resolve : String → String → Option FullCommit)
    (repo : String) (seenC : SMap) (seenB : BMap) (s : List String)
    (hB : seenB repo = some s) :
    get_paged (some v) resp = Except.ok ([], some v) ∧
    processBranchCycle resolve repo seenC seenB [] = ⟨seenC, seenB, [], []⟩ := by
  constructor
  · unfold get_paged
    rw [if_pos h]
  · rw [processBranchCycle_eq_some resolve repo seenC seenB [] s hB]
    simp only [currentBranches, List.filter_nil, List.append_nil]
    rw [updB_eq_self seenB repo s hB]
    rfl

/-- Witness for C2's amended statement at a concrete input. -/
theorem claim_C2_witness :
    @get_paged Branch (some "W/e1") ⟨304, none, none⟩ = Except.ok ([], some "W/e1") ∧
    processBranchCycle (fun _ _ => none) "octo/repo" (fun _ => none)
        (fun r => if r = "octo/repo" then some ["main"] else none) [] =
      ⟨fun _ => none, fun r => if r = "octo/repo" then some ["main"] else none, [], []⟩ :=
  claim_C2_amended "W/e1" ⟨304, none, none⟩ rfl _ "octo/repo" _ _ ["main"] (by decide)

/-- C3 counterexample: with two organizations where the first one's
repository fetch fails and the second one's succeeds with a repository, the
whole collection step returns the error — the second organization's
repository is not reached in that cycle, contradicting "does not abort the
others". -/
theorem claim_C3_counterexample :
    fetchAllRepos
        (fun o => if o = "orga" then Except.error 500 else Except.ok ["orgb/repo1"])
        ["orga", "orgb"] = Except.error 500 ∧
    (fun o => if o = "orga" then Except.error 500 else Except.ok ["orgb/repo1"] :
        String → Except Nat (List String)) "orgb" = Except.ok ["orgb/repo1"] :=
  ⟨rfl, rfl⟩

/-- C3 as amended: a failure fetching any organization's repository list
aborts the whole repository-collection step of the cycle: `check_all_repos`
propagates an error and no repository of any organization is checked in
that cycle. -/
theorem claim_C3_amended (fetchOrg : String → Except Nat (List String))
    (orgs : List String) (o : String) (e : Nat)
    (ho : o ∈ orgs) (he : fetchOrg o = Except.error e) :
    ∃ e2, fetchAllRepos fetchOrg orgs = Except.error e2 := by
  induction orgs with
  | nil => cases ho
  | cons a t ih =>
    rcases List.mem_cons.mp ho with rfl | hot
    · exact ⟨e, by simp [fetchAllRepos, he]⟩
    · cases hf : fetchOrg a with
      | error e2 => exact ⟨e2, by simp [fetchAllRepos, hf]⟩
      | ok repos =>
        obtain ⟨e2, h2⟩ := ih hot
        exact ⟨e2, by simp [fetchAllRepos, hf, h2]⟩

/-- Witness for C3's amended statement at a concrete input. -/
theorem claim_C3_witness :
    ∃ e2, fetchAllRepos
        (fun o => if o = "orga" then Except.error 500 else Except.ok ["orgb/repo1"])
        ["orga", "orgb"] = Except.error e2 :=
  claim_C3_amended _ ["orga", "orgb"] "orga" 500 (by decide) rfl

end GithubNotifier
